import Mathlib

/-!
Verification of the CBC+HMAC AEAD core of go-jose (src/cipher/cbc_hmac.go).

Byte slices are shallowly embedded as lists of natural numbers.  The
external collaborators (block cipher, PKCS#7 padding, HMAC/SHA-2) are
modelled per the contracts the spec assigns to them: the block cipher and
the HMAC function are abstract parameters, the padding capability is a
concrete function following its specified contract.  Go panics are an
explicit "panicked" outcome.
-/

set_option maxHeartbeats 1600000

namespace Jose

/-- Byte sequences are modelled as lists of natural numbers; each entry
stands for one byte of a Go slice. -/
abbrev Bytes := List Nat

/-- xorBytes models the per-byte XOR performed inside Go CBC mode
(crypto/cipher); the result has the length of the shorter operand. -/
def xorBytes (a b : Bytes) : Bytes := List.zipWith Nat.xor a b

/-- copyAt buf off src models the Go statement copy(buf[off:], src): it
overwrites buf starting at offset off with min(len(src), len(buf)-off)
bytes of src, leaving the rest of buf unchanged. -/
def copyAt (buf : Bytes) (off : Nat) (src : Bytes) : Bytes :=
  buf.take off ++ src.take (buf.length - off) ++ buf.drop (off + src.length)

/-- resize models the Go helper resize(in, n) of cbc_hmac.go.  The hidden
content of the slice's spare capacity is an explicit parameter ext, so
cap(in) is in.length + ext.length: when the capacity suffices Go reslices
over the existing array, otherwise it allocates n zero bytes and copies
in to the front. -/
def resize (ext inb : Bytes) (n : Nat) : Bytes :=
  if n ≤ inb.length + ext.length then (inb ++ ext).take n
  else copyAt (List.replicate n 0) 0 inb

/-- An abstract block cipher (Go crypto/cipher.Block): block size in bytes
and single-block encrypt / decrypt functions. -/
structure Block where
  blockSize : Nat
  encB : Bytes → Bytes
  decB : Bytes → Bytes

/-- CBC encryption of k blocks: each block is XORed with the previous
ciphertext block (initially the IV) and then encrypted. -/
def cbcEncBlocks (enc : Bytes → Bytes) (bs : Nat) : Nat → Bytes → Bytes → Bytes
  | 0, _, _ => []
  | k + 1, prev, msg =>
      let c := enc (xorBytes prev (msg.take bs))
      c ++ cbcEncBlocks enc bs k c (msg.drop bs)

/-- cbcEncrypt models cipher.NewCBCEncrypter(b, iv) followed by one
CryptBlocks call over the whole buffer. -/
def cbcEncrypt (b : Block) (iv msg : Bytes) : Bytes :=
  cbcEncBlocks b.encB b.blockSize (msg.length / b.blockSize) iv msg

/-- CBC decryption of k blocks: each block is decrypted and XORed with the
previous ciphertext block (initially the IV). -/
def cbcDecBlocks (dec : Bytes → Bytes) (bs : Nat) : Nat → Bytes → Bytes → Bytes
  | 0, _, _ => []
  | k + 1, prev, msg =>
      xorBytes prev (dec (msg.take bs)) ++ cbcDecBlocks dec bs k (msg.take bs) (msg.drop bs)

/-- cbcDecrypt models cipher.NewCBCDecrypter(b, iv) followed by one
CryptBlocks call over the whole buffer. -/
def cbcDecrypt (b : Block) (iv msg : Bytes) : Bytes :=
  cbcDecBlocks b.decB b.blockSize (msg.length / b.blockSize) iv msg

/-- Number of padding bytes PKCS#7 appends to a buffer of length n. -/
def padLen (bs n : Nat) : Nat := bs - n % bs

/-- Modelled from the spec: the external PKCS#7 padding capability
(github.com/apexskier/cryptoPadding, not part of src/).  Pad appends p
bytes of value p where p = blockSize - len mod blockSize, 1 <= p <=
blockSize; per the contract it never fails provided blockSize >= 1. -/
def padPKCS7 (b : Bytes) (bs : Nat) : Option Bytes :=
  if 1 ≤ bs then some (b ++ List.replicate (padLen bs b.length) (padLen bs b.length))
  else none

/-- The padded buffer Pad produces for a buffer b: b followed by padLen
bytes of value padLen. -/
def paddedPT (bs : Nat) (pt : Bytes) : Bytes :=
  pt ++ List.replicate (padLen bs pt.length) (padLen bs pt.length)

/-- Modelled from the spec: Unpad reads the last byte p of the buffer and
fails if p = 0, p > blockSize, p > len(buffer), or one of the last p bytes
differs from p; on success it strips the last p bytes. -/
def unpadPKCS7 (b : Bytes) (bs : Nat) : Option Bytes :=
  if b.length = 0 then none
  else
    let p := b.getD (b.length - 1) 0
    if p = 0 ∨ bs < p ∨ b.length < p then none
    else if (b.drop (b.length - p)).all (fun x => x == p) then some (b.take (b.length - p))
    else none

/-- The SHA-2 family members computeAuthTag can select. -/
inductive HashAlg where
  | sha256
  | sha384
  | sha512
deriving DecidableEq

/-- Digest size in bytes of each hash. -/
def hashLength : HashAlg → Nat
  | HashAlg.sha256 => 32
  | HashAlg.sha384 => 48
  | HashAlg.sha512 => 64

/-- The switch over len(integrityKey) in computeAuthTag; Go leaves the hash
function nil for any other size, which makes hmac.New panic. -/
def hashForKeyLen (n : Nat) : Option HashAlg :=
  if n = 16 then some HashAlg.sha256
  else if n = 24 then some HashAlg.sha384
  else if n = 32 then some HashAlg.sha512
  else none

/-- encode64 models binary.BigEndian.PutUint64 into a fresh 8-byte buffer
(big-endian). -/
def encode64 (v : Nat) : Bytes :=
  [v / 2 ^ 56 % 256, v / 2 ^ 48 % 256, v / 2 ^ 40 % 256, v / 2 ^ 32 % 256,
   v / 2 ^ 24 % 256, v / 2 ^ 16 % 256, v / 2 ^ 8 % 256, v % 256]

/-- bitLen of cbc_hmac.go serializes uint64(len(input) * 8) big-endian. -/
def bitLen (input : Bytes) : Bytes := encode64 (input.length * 8 % 2 ^ 64)

/-- The cbcAEAD struct of cbc_hmac.go. -/
structure cbcAEAD where
  encryptionKey : Bytes
  integrityKey : Bytes
  authtagBytes : Nat
  blockCipher : Block

/-- The nonceBytes constant of cbc_hmac.go. -/
def nonceBytes : Nat := 16

/-- NewCBCHMAC of cbc_hmac.go: splits the combined key and keys the block
cipher with the second half; the only failure is the factory rejecting
the encryption key. -/
def NewCBCHMAC (key : Bytes) (newBlockCipher : Bytes → Option Block) : Option cbcAEAD :=
  let keySize := key.length / 2
  let integrityKey := key.take keySize
  let encryptionKey := key.drop keySize
  match newBlockCipher encryptionKey with
  | none => none
  | some blockCipher => some ⟨encryptionKey, integrityKey, keySize, blockCipher⟩

/-- NonceSize of cbc_hmac.go: the nonceBytes constant, ignoring the block
cipher. -/
def NonceSize (_ : cbcAEAD) : Nat := nonceBytes

/-- Overhead of cbc_hmac.go: block size (padding worst case) plus tag
length. -/
def Overhead (ctx : cbcAEAD) : Nat := ctx.blockCipher.blockSize + ctx.authtagBytes

/-- computeAuthTag of cbc_hmac.go, with HMAC abstract (crypto/hmac and the
SHA-2 family are external): HMAC over aad, nonce, ciphertext and the
serialized aad bit length, truncated to authtagBytes.  Returns none
exactly when the key-length switch selects no hash, in which case Go
panics inside hmac.New. -/
def computeAuthTag (mac : HashAlg → Bytes → Bytes → Bytes) (ctx : cbcAEAD)
    (aad nonce ciphertext : Bytes) : Option Bytes :=
  match hashForKeyLen ctx.integrityKey.length with
  | none => none
  | some h =>
      some ((mac h ctx.integrityKey (aad ++ nonce ++ ciphertext ++ bitLen aad)).take ctx.authtagBytes)

/-- The memory a Seal call can write: the caller's plaintext buffer and
Seal's private working buffer.  Each mutating statement of Seal is one of
the step functions below; the claims about non-mutation of the plaintext
are stated over this model. -/
structure SealMem where
  ptBuf : Bytes
  work : Bytes
deriving DecidableEq

/-- make(..., len(plaintext)+Overhead())[:len(plaintext)] followed by
copy(ciphertext, plaintext): allocates the fresh working buffer and fills
it from the plaintext buffer (a read of ptBuf, a write of work). -/
def sealAlloc (ctx : cbcAEAD) (m : SealMem) : SealMem :=
  ⟨m.ptBuf, copyAt ((List.replicate (m.ptBuf.length + Overhead ctx) 0).take m.ptBuf.length) 0 m.ptBuf⟩

/-- padding.Pad(ciphertext, blockSize): rewrites the working buffer; the
error branch feeds the panic(err) in Seal. -/
def sealPad (ctx : cbcAEAD) (m : SealMem) : Option SealMem :=
  match padPKCS7 m.work ctx.blockCipher.blockSize with
  | none => none
  | some w => some ⟨m.ptBuf, w⟩

/-- cbc.CryptBlocks(ciphertext, ciphertext): in-place CBC encryption of the
working buffer; CryptBlocks panics when the buffer length is not a
multiple of the block size. -/
def sealEncryptStep (ctx : cbcAEAD) (nonce : Bytes) (m : SealMem) : Option SealMem :=
  if m.work.length % ctx.blockCipher.blockSize = 0 then
    some ⟨m.ptBuf, cbcEncrypt ctx.blockCipher nonce m.work⟩
  else none

/-- The buffer phase of Seal in source order: allocate+copy, the
cipher.NewCBCEncrypter nonce-length check (panic on mismatch), pad,
encrypt in place.  none is a Go panic. -/
def sealSteps (ctx : cbcAEAD) (nonce pt : Bytes) : Option SealMem :=
  let m1 := sealAlloc ctx ⟨pt, []⟩
  if nonce.length = ctx.blockCipher.blockSize then
    match sealPad ctx m1 with
    | none => none
    | some m2 => sealEncryptStep ctx nonce m2
  else none

/-- Outcome of Seal: a returned buffer, or a Go panic. -/
inductive SealResult where
  | ok (out : Bytes)
  | panicked
deriving DecidableEq

/-- Seal of cbc_hmac.go.  panicked covers the Go panics (IV length, the
padding error branch, CryptBlocks on a partial block, nil hash inside
computeAuthTag).  ext is the unknown spare-capacity content of dst fed to
resize. -/
def Seal (mac : HashAlg → Bytes → Bytes → Bytes) (ext : Bytes) (ctx : cbcAEAD)
    (dst nonce plaintext data : Bytes) : SealResult :=
  match sealSteps ctx nonce plaintext with
  | none => SealResult.panicked
  | some m =>
      match computeAuthTag mac ctx data nonce m.work with
      | none => SealResult.panicked
      | some authtag =>
          SealResult.ok (copyAt (copyAt (resize ext dst (dst.length + m.work.length + authtag.length))
            dst.length m.work) (dst.length + m.work.length) authtag)

/-- Outcome of Open: a returned buffer, one of the Go error returns, or a
Go panic. -/
inductive OpenResult where
  | ok (out : Bytes)
  | tooShort
  | authFailed
  | badPadding
  | panicked
deriving DecidableEq

/-- Open of cbc_hmac.go in source order: length check, tag recomputation
over input minus the trailing tag, constant-time compare, CBC decryption
in place, unpadding, append to dst. -/
def Open (mac : HashAlg → Bytes → Bytes → Bytes) (ext : Bytes) (ctx : cbcAEAD)
    (dst nonce ciphertext data : Bytes) : OpenResult :=
  if ciphertext.length < ctx.authtagBytes then OpenResult.tooShort
  else
    match computeAuthTag mac ctx data nonce (ciphertext.take (ciphertext.length - ctx.authtagBytes)) with
    | none => OpenResult.panicked
    | some expectedTag =>
        if expectedTag = ciphertext.drop (ciphertext.length - ctx.authtagBytes) then
          if nonce.length = ctx.blockCipher.blockSize then
            if (ciphertext.length - ctx.authtagBytes) % ctx.blockCipher.blockSize = 0 then
              match unpadPKCS7
                  (cbcDecrypt ctx.blockCipher nonce (ciphertext.take (ciphertext.length - ctx.authtagBytes)))
                  ctx.blockCipher.blockSize with
              | none => OpenResult.badPadding
              | some plaintext =>
                  OpenResult.ok (copyAt (resize ext dst (dst.length + plaintext.length)) dst.length plaintext)
            else OpenResult.panicked
          else OpenResult.panicked
        else OpenResult.authFailed

/-- Replace only the decryption direction of the context's block cipher;
used to state that a result is reached without any decryption. -/
def withDec (ctx : cbcAEAD) (d : Bytes → Bytes) : cbcAEAD :=
  ⟨ctx.encryptionKey, ctx.integrityKey, ctx.authtagBytes,
   ⟨ctx.blockCipher.blockSize, ctx.blockCipher.encB, d⟩⟩

/-- Identity block cipher on 16-byte blocks, used to instantiate theorems
at concrete inputs. -/
def idBlock : Block := ⟨16, fun x => x, fun x => x⟩

/-- A concrete stand-in HMAC of the right digest length, used to
instantiate theorems at concrete inputs. -/
def macZero : HashAlg → Bytes → Bytes → Bytes := fun h _ _ => List.replicate (hashLength h) 0

/-- A concrete context with a 16-byte integrity key and the identity block
cipher. -/
def ctx32 : cbcAEAD := ⟨List.replicate 16 0, List.replicate 16 0, 16, idBlock⟩

/-- A concrete all-zero 16-byte nonce. -/
def nonce16 : Bytes := List.replicate 16 0

/-! ## Lemmas about the buffer helpers -/

theorem length_copyAt (buf : Bytes) (off : Nat) (src : Bytes) :
    (copyAt buf off src).length = buf.length := by
  simp only [copyAt, List.length_append, List.length_take, List.length_drop]
  omega

theorem copyAt_zero_full (buf src : Bytes) (h : src.length = buf.length) :
    copyAt buf 0 src = src := by
  simp only [copyAt, List.take_zero, List.nil_append, Nat.sub_zero, Nat.zero_add]
  rw [List.take_of_length_le (le_of_eq h), h, List.drop_length, List.append_nil]

theorem copyAt_at_prefix (pre rest src : Bytes) (h : src.length ≤ rest.length) :
    copyAt (pre ++ rest) pre.length src = pre ++ src ++ rest.drop src.length := by
  simp only [copyAt, List.take_left, List.length_append]
  rw [show pre.length + rest.length - pre.length = rest.length by omega,
    List.take_of_length_le h, List.drop_append_eq_append_drop,
    List.drop_eq_nil_of_le (by omega : pre.length ≤ pre.length + src.length),
    show pre.length + src.length - pre.length = src.length by omega]
  simp

theorem length_resize (ext inb : Bytes) (n : Nat) :
    (resize ext inb n).length = n := by
  by_cases h : n ≤ inb.length + ext.length
  · simp [resize, h]
  · simp only [resize, if_neg h, length_copyAt, List.length_replicate]

theorem resize_eq_append (ext inb : Bytes) (n : Nat) (h : inb.length ≤ n) :
    ∃ t, resize ext inb n = inb ++ t ∧ inb.length + t.length = n := by
  by_cases hc : n ≤ inb.length + ext.length
  · refine ⟨ext.take (n - inb.length), ?_, ?_⟩
    · simp [resize, hc, List.take_append_eq_append_take, List.take_of_length_le h]
    · simp only [List.length_take]
      omega
  · refine ⟨List.replicate (n - inb.length) 0, ?_, ?_⟩
    · simp only [resize, if_neg hc, copyAt, List.take_zero, List.length_replicate,
        Nat.sub_zero, List.nil_append, Nat.zero_add]
      rw [List.take_of_length_le (by omega), List.drop_replicate]
    · simp only [List.length_replicate]
      omega

theorem resize_take (ext inb : Bytes) (n : Nat) (h : inb.length ≤ n) :
    (resize ext inb n).take inb.length = inb := by
  obtain ⟨t, ht, _⟩ := resize_eq_append ext inb n h
  rw [ht, List.take_left]

theorem open_assemble (ext dst a : Bytes) :
    copyAt (resize ext dst (dst.length + a.length)) dst.length a = dst ++ a := by
  obtain ⟨t, ht, hlen⟩ := resize_eq_append ext dst (dst.length + a.length) (by omega)
  rw [ht, copyAt_at_prefix dst t a (by omega)]
  rw [List.drop_eq_nil_of_le (by omega), List.append_nil]

theorem seal_assemble (ext dst a b : Bytes) :
    copyAt (copyAt (resize ext dst (dst.length + a.length + b.length)) dst.length a)
      (dst.length + a.length) b = dst ++ a ++ b := by
  obtain ⟨t, ht, hlen⟩ :=
    resize_eq_append ext dst (dst.length + a.length + b.length) (by omega)
  rw [ht, copyAt_at_prefix dst t a (by omega)]
  have h1 : dst.length + a.length = (dst ++ a).length := by simp
  rw [h1, copyAt_at_prefix (dst ++ a) (t.drop a.length) b (by simp; omega)]
  rw [List.drop_eq_nil_of_le (by simp; omega), List.append_nil]

/-! ## Lemmas about XOR and CBC mode -/

theorem length_xorBytes (a b : Bytes) :
    (xorBytes a b).length = min a.length b.length := by
  simp [xorBytes]

theorem xorBytes_cancel : ∀ (a b : Bytes), a.length = b.length →
    xorBytes a (xorBytes a b) = b
  | [], [], _ => rfl
  | x :: a, y :: b, h => by
      simp only [xorBytes, List.zipWith_cons_cons, List.cons.injEq]
      exact ⟨Nat.xor_cancel_left x y, xorBytes_cancel a b (by simpa using h)⟩

theorem length_cbcEncBlocks (enc : Bytes → Bytes) (bs : Nat)
    (henc : ∀ x, x.length = bs → (enc x).length = bs) :
    ∀ (k : Nat) (prev msg : Bytes), prev.length = bs → bs * k ≤ msg.length →
      (cbcEncBlocks enc bs k prev msg).length = bs * k
  | 0, _, _, _, _ => rfl
  | k + 1, prev, msg, hp, hm => by
      have hmul : bs * (k + 1) = bs * k + bs := by ring
      have hbs : bs ≤ msg.length := by omega
      have harg : (xorBytes prev (msg.take bs)).length = bs := by
        rw [length_xorBytes, hp, List.length_take]
        omega
      have hc : (enc (xorBytes prev (msg.take bs))).length = bs := henc _ harg
      simp only [cbcEncBlocks, List.length_append, hc]
      rw [length_cbcEncBlocks enc bs henc k _ (msg.drop bs) hc
        (by rw [List.length_drop]; omega)]
      omega

theorem cbc_roundtrip (enc dec : Bytes → Bytes) (bs : Nat)
    (henc : ∀ x, x.length = bs → (enc x).length = bs)
    (hdec : ∀ x, x.length = bs → dec (enc x) = x) :
    ∀ (k : Nat) (prev msg : Bytes), prev.length = bs → msg.length = bs * k →
      cbcDecBlocks dec bs k prev (cbcEncBlocks enc bs k prev msg) = msg
  | 0, _, msg, _, hm => by
      have : msg = [] := List.eq_nil_of_length_eq_zero (by omega)
      simp [this, cbcDecBlocks]
  | k + 1, prev, msg, hp, hm => by
      have hmul : bs * (k + 1) = bs * k + bs := by ring
      have hbs : bs ≤ msg.length := by omega
      have htk : (msg.take bs).length = bs := by rw [List.length_take]; omega
      have harg : (xorBytes prev (msg.take bs)).length = bs := by
        rw [length_xorBytes, hp, htk]; omega
      have hc : (enc (xorBytes prev (msg.take bs))).length = bs := henc _ harg
      simp only [cbcEncBlocks, cbcDecBlocks]
      rw [List.take_left' hc, List.drop_left' hc, hdec _ harg,
        xorBytes_cancel prev (msg.take bs) (by omega),
        cbc_roundtrip enc dec bs henc hdec k _ (msg.drop bs) hc
          (by rw [List.length_drop]; omega)]
      exact List.take_append_drop bs msg

/-! ## Lemmas about the padding contract -/

theorem padLen_pos (bs n : Nat) (h : 1 ≤ bs) : 1 ≤ padLen bs n := by
  have := Nat.mod_lt n h
  simp only [padLen]
  omega

theorem padLen_le (bs n : Nat) : padLen bs n ≤ bs := Nat.sub_le bs (n % bs)

theorem paddedPT_length (bs : Nat) (pt : Bytes) :
    (paddedPT bs pt).length = pt.length + padLen bs pt.length := by
  simp [paddedPT]

theorem paddedPT_length_mod (bs : Nat) (pt : Bytes) (h : 1 ≤ bs) :
    (paddedPT bs pt).length % bs = 0 := by
  rw [paddedPT_length]
  have h3 := Nat.div_add_mod pt.length bs
  have h4 : pt.length % bs < bs := Nat.mod_lt _ h
  have h2 : pt.length + padLen bs pt.length = bs * (pt.length / bs + 1) := by
    simp only [padLen]
    rw [Nat.mul_add, Nat.mul_one]
    omega
  rw [h2]
  exact Nat.mul_mod_right bs _

theorem padPKCS7_eq (b : Bytes) (bs : Nat) (h : 1 ≤ bs) :
    padPKCS7 b bs = some (paddedPT bs b) := by
  simp [padPKCS7, paddedPT, h]

theorem unpad_pad (b : Bytes) (bs : Nat) (h : 1 ≤ bs) :
    unpadPKCS7 (paddedPT bs b) bs = some b := by
  have hp1 : 1 ≤ padLen bs b.length := padLen_pos bs b.length h
  have hple : padLen bs b.length ≤ bs := padLen_le bs b.length
  have hlen : (paddedPT bs b).length = b.length + padLen bs b.length :=
    paddedPT_length bs b
  have hlast : (paddedPT bs b).getD ((paddedPT bs b).length - 1) 0 = padLen bs b.length := by
    rw [hlen, paddedPT,
      List.getD_append_right b _ 0 _ (by omega),
      show b.length + padLen bs b.length - 1 - b.length = padLen bs b.length - 1 by omega]
    simp only [List.getD_eq_getElem?_getD, List.getElem?_replicate,
      if_pos (by omega : padLen bs b.length - 1 < padLen bs b.length)]
    rfl
  rw [unpadPKCS7, if_neg (by omega)]
  simp only [hlast]
  rw [if_neg (by omega)]
  rw [if_pos ?hall]
  case hall =>
    rw [hlen, paddedPT, show b.length + padLen bs b.length - padLen bs b.length = b.length by omega,
      List.drop_left' rfl]
    simp only [List.all_eq_true]
    intro x hx
    rw [List.eq_of_mem_replicate hx]
    exact beq_self_eq_true _
  rw [hlen, paddedPT, show b.length + padLen bs b.length - padLen bs b.length = b.length by omega,
    List.take_left' rfl]

/-! ## Lemmas about the tag computation -/

theorem keyLen_le_hashLength (n : Nat) (alg : HashAlg)
    (h : hashForKeyLen n = some alg) : n ≤ hashLength alg := by
  simp only [hashForKeyLen] at h
  split_ifs at h with h1 h2 h3
  · subst h1; cases h; decide
  · subst h2; cases h; decide
  · subst h3; cases h; decide

theorem computeAuthTag_eq (mac : HashAlg → Bytes → Bytes → Bytes) (ctx : cbcAEAD)
    (aad nonce ct : Bytes) (alg : HashAlg)
    (h : hashForKeyLen ctx.integrityKey.length = some alg) :
    computeAuthTag mac ctx aad nonce ct =
      some ((mac alg ctx.integrityKey (aad ++ nonce ++ ct ++ bitLen aad)).take ctx.authtagBytes) := by
  simp [computeAuthTag, h]

theorem computeAuthTag_none (mac : HashAlg → Bytes → Bytes → Bytes) (ctx : cbcAEAD)
    (aad nonce ct : Bytes) (h : hashForKeyLen ctx.integrityKey.length = none) :
    computeAuthTag mac ctx aad nonce ct = none := by
  simp [computeAuthTag, h]

/-! ## Evaluation lemmas for Seal and Open -/

theorem sealAlloc_work (ctx : cbcAEAD) (pt w : Bytes) :
    sealAlloc ctx ⟨pt, w⟩ = ⟨pt, pt⟩ := by
  have hbuf : ((List.replicate (pt.length + Overhead ctx) 0).take pt.length).length = pt.length := by
    rw [List.length_take, List.length_replicate]; omega
  simp only [sealAlloc]
  rw [copyAt_zero_full _ pt hbuf.symm]

theorem sealSteps_eval (ctx : cbcAEAD) (nonce pt : Bytes)
    (hbs : 1 ≤ ctx.blockCipher.blockSize)
    (hnl : nonce.length = ctx.blockCipher.blockSize) :
    sealSteps ctx nonce pt =
      some ⟨pt, cbcEncrypt ctx.blockCipher nonce (paddedPT ctx.blockCipher.blockSize pt)⟩ := by
  simp only [sealSteps, sealAlloc_work, if_pos hnl, sealPad,
    padPKCS7_eq pt ctx.blockCipher.blockSize hbs, sealEncryptStep,
    paddedPT_length_mod ctx.blockCipher.blockSize pt hbs, if_true, eq_self_iff_true]

theorem Seal_eval (mac : HashAlg → Bytes → Bytes → Bytes) (ext : Bytes) (ctx : cbcAEAD)
    (dst nonce pt aad : Bytes) (alg : HashAlg)
    (hbs : 1 ≤ ctx.blockCipher.blockSize)
    (hnl : nonce.length = ctx.blockCipher.blockSize)
    (hsup : hashForKeyLen ctx.integrityKey.length = some alg) :
    Seal mac ext ctx dst nonce pt aad = SealResult.ok (dst ++
      cbcEncrypt ctx.blockCipher nonce (paddedPT ctx.blockCipher.blockSize pt) ++
      (mac alg ctx.integrityKey (aad ++ nonce ++
        cbcEncrypt ctx.blockCipher nonce (paddedPT ctx.blockCipher.blockSize pt) ++
        bitLen aad)).take ctx.authtagBytes) := by
  simp only [Seal, sealSteps_eval ctx nonce pt hbs hnl,
    computeAuthTag_eq mac ctx aad nonce _ alg hsup]
  rw [seal_assemble]

theorem Open_eval_ok (mac : HashAlg → Bytes → Bytes → Bytes) (ext : Bytes) (ctx : cbcAEAD)
    (dst nonce ct tag aad pt : Bytes)
    (htag : computeAuthTag mac ctx aad nonce ct = some tag)
    (hlen : tag.length = ctx.authtagBytes)
    (hnl : nonce.length = ctx.blockCipher.blockSize)
    (hmod : ct.length % ctx.blockCipher.blockSize = 0)
    (hunpad : unpadPKCS7 (cbcDecrypt ctx.blockCipher nonce ct) ctx.blockCipher.blockSize = some pt) :
    Open mac ext ctx dst nonce (ct ++ tag) aad = OpenResult.ok (dst ++ pt) := by
  have hnlt : ¬ ct.length + ctx.authtagBytes < ctx.authtagBytes := by omega
  simp only [Open, List.length_append, hlen, Nat.add_sub_cancel, if_neg hnlt,
    List.take_left, List.drop_left, htag, hnl, hmod, hunpad, if_true, eq_self_iff_true]
  rw [open_assemble]

theorem length_cbcEncrypt_padded (b : Block) (nonce pt : Bytes)
    (hbs : 1 ≤ b.blockSize) (hnl : nonce.length = b.blockSize)
    (hencl : ∀ x, x.length = b.blockSize → (b.encB x).length = b.blockSize) :
    (cbcEncrypt b nonce (paddedPT b.blockSize pt)).length = (paddedPT b.blockSize pt).length := by
  have hdvd : b.blockSize ∣ (paddedPT b.blockSize pt).length :=
    Nat.dvd_of_mod_eq_zero (paddedPT_length_mod _ pt hbs)
  have hk : b.blockSize * ((paddedPT b.blockSize pt).length / b.blockSize) =
      (paddedPT b.blockSize pt).length := Nat.mul_div_cancel' hdvd
  rw [cbcEncrypt, length_cbcEncBlocks b.encB b.blockSize hencl _ nonce _ hnl (le_of_eq hk), hk]

theorem cbcDecrypt_cbcEncrypt (b : Block) (nonce msg : Bytes)
    (hnl : nonce.length = b.blockSize)
    (hencl : ∀ x, x.length = b.blockSize → (b.encB x).length = b.blockSize)
    (hdec : ∀ x, x.length = b.blockSize → b.decB (b.encB x) = x)
    (hmod : msg.length % b.blockSize = 0) :
    cbcDecrypt b nonce (cbcEncrypt b nonce msg) = msg := by
  have hk : b.blockSize * (msg.length / b.blockSize) = msg.length :=
    Nat.mul_div_cancel' (Nat.dvd_of_mod_eq_zero hmod)
  have hctlen : (cbcEncrypt b nonce msg).length = msg.length := by
    rw [cbcEncrypt, length_cbcEncBlocks b.encB b.blockSize hencl _ nonce msg hnl (le_of_eq hk), hk]
  rw [cbcDecrypt, hctlen, cbcEncrypt]
  exact cbc_roundtrip b.encB b.decB b.blockSize hencl hdec _ nonce msg hnl hk.symm

theorem open_of_seal (mac : HashAlg → Bytes → Bytes → Bytes) (ext ext2 : Bytes) (ctx : cbcAEAD)
    (nonce pt aad out : Bytes) (alg : HashAlg)
    (hsup : hashForKeyLen ctx.integrityKey.length = some alg)
    (hatb : ctx.authtagBytes = ctx.integrityKey.length)
    (hbs : 1 ≤ ctx.blockCipher.blockSize)
    (hnl : nonce.length = ctx.blockCipher.blockSize)
    (hencl : ∀ x, x.length = ctx.blockCipher.blockSize →
      (ctx.blockCipher.encB x).length = ctx.blockCipher.blockSize)
    (hdec : ∀ x, x.length = ctx.blockCipher.blockSize →
      ctx.blockCipher.decB (ctx.blockCipher.encB x) = x)
    (hmacl : ∀ h k m, (mac h k m).length = hashLength h)
    (hseal : Seal mac ext ctx [] nonce pt aad = SealResult.ok out) :
    Open mac ext2 ctx [] nonce out aad = OpenResult.ok pt := by
  rw [Seal_eval mac ext ctx [] nonce pt aad alg hbs hnl hsup] at hseal
  cases hseal
  have hmodp : (paddedPT ctx.blockCipher.blockSize pt).length % ctx.blockCipher.blockSize = 0 :=
    paddedPT_length_mod ctx.blockCipher.blockSize pt hbs
  have hctlen := length_cbcEncrypt_padded ctx.blockCipher nonce pt hbs hnl hencl
  have hok := Open_eval_ok mac ext2 ctx [] nonce
    (cbcEncrypt ctx.blockCipher nonce (paddedPT ctx.blockCipher.blockSize pt))
    ((mac alg ctx.integrityKey (aad ++ nonce ++
      cbcEncrypt ctx.blockCipher nonce (paddedPT ctx.blockCipher.blockSize pt) ++
      bitLen aad)).take ctx.authtagBytes) aad pt
    (computeAuthTag_eq mac ctx aad nonce _ alg hsup)
    (by rw [List.length_take, hmacl]
        have := keyLen_le_hashLength _ alg hsup
        omega)
    hnl
    (by rw [hctlen]; exact hmodp)
    (by rw [cbcDecrypt_cbcEncrypt ctx.blockCipher nonce _ hnl hencl hdec hmodp]
        exact unpad_pad pt ctx.blockCipher.blockSize hbs)
  simpa using hok

theorem Open_tooShort_of_lt (mac : HashAlg → Bytes → Bytes → Bytes) (ext : Bytes)
    (ctx : cbcAEAD) (dst nonce ct aad : Bytes) (h : ct.length < ctx.authtagBytes) :
    Open mac ext ctx dst nonce ct aad = OpenResult.tooShort := by
  simp [Open, h]

theorem Open_ne_tooShort (mac : HashAlg → Bytes → Bytes → Bytes) (ext : Bytes)
    (ctx : cbcAEAD) (dst nonce ct aad : Bytes) (hge : ctx.authtagBytes ≤ ct.length) :
    Open mac ext ctx dst nonce ct aad ≠ OpenResult.tooShort := by
  intro h
  simp only [Open, if_neg (by omega : ¬ ct.length < ctx.authtagBytes)] at h
  rcases hct : computeAuthTag mac ctx aad nonce (ct.take (ct.length - ctx.authtagBytes))
    with _ | tg
  · simp only [hct] at h
    exact OpenResult.noConfusion h
  · rcases hu : unpadPKCS7
      (cbcDecrypt ctx.blockCipher nonce (ct.take (ct.length - ctx.authtagBytes)))
      ctx.blockCipher.blockSize with _ | p <;>
      simp only [hct, hu] at h <;> split_ifs at h

theorem Open_eval_mismatch (mac : HashAlg → Bytes → Bytes → Bytes) (ext : Bytes)
    (ctx : cbcAEAD) (dst nonce ct aad expTag : Bytes)
    (hge : ctx.authtagBytes ≤ ct.length)
    (htag : computeAuthTag mac ctx aad nonce (ct.take (ct.length - ctx.authtagBytes)) = some expTag)
    (hne : expTag ≠ ct.drop (ct.length - ctx.authtagBytes)) :
    Open mac ext ctx dst nonce ct aad = OpenResult.authFailed := by
  simp only [Open, if_neg (by omega : ¬ ct.length < ctx.authtagBytes), htag, if_neg hne]

theorem Seal_shift_dst (mac : HashAlg → Bytes → Bytes → Bytes) (ext ext2 : Bytes)
    (ctx : cbcAEAD) (dst nonce pt aad out : Bytes)
    (h : Seal mac ext ctx dst nonce pt aad = SealResult.ok out) :
    ∃ body, Seal mac ext2 ctx [] nonce pt aad = SealResult.ok body ∧ out = dst ++ body := by
  rcases hst : sealSteps ctx nonce pt with _ | m
  · simp only [Seal, hst] at h
    exact SealResult.noConfusion h
  · rcases hct : computeAuthTag mac ctx aad nonce m.work with _ | tg
    · simp only [Seal, hst, hct] at h
      exact SealResult.noConfusion h
    · refine ⟨m.work ++ tg, ?_, ?_⟩
      · simp only [Seal, hst, hct]
        rw [seal_assemble]
        simp
      · simp only [Seal, hst, hct] at h
        rw [seal_assemble] at h
        cases h
        rw [List.append_assoc]

theorem Open_shift_dst (mac : HashAlg → Bytes → Bytes → Bytes) (ext ext2 : Bytes)
    (ctx : cbcAEAD) (dst nonce ct aad out : Bytes)
    (h : Open mac ext ctx dst nonce ct aad = OpenResult.ok out) :
    ∃ pt2, Open mac ext2 ctx [] nonce ct aad = OpenResult.ok pt2 ∧ out = dst ++ pt2 := by
  by_cases h1 : ct.length < ctx.authtagBytes
  · simp [Open, h1] at h
  · rcases hct : computeAuthTag mac ctx aad nonce (ct.take (ct.length - ctx.authtagBytes))
      with _ | tg
    · simp [Open, h1, hct] at h
    · by_cases h2 : tg = ct.drop (ct.length - ctx.authtagBytes)
      · by_cases h3 : nonce.length = ctx.blockCipher.blockSize
        · by_cases h4 : (ct.length - ctx.authtagBytes) % ctx.blockCipher.blockSize = 0
          · rcases hu : unpadPKCS7
              (cbcDecrypt ctx.blockCipher nonce (ct.take (ct.length - ctx.authtagBytes)))
              ctx.blockCipher.blockSize with _ | p
            · simp [Open, h1, hct, h2, h3, h4, hu] at h
            · refine ⟨p, ?_, ?_⟩
              · simp only [Open, if_neg h1, hct, if_pos h2, if_pos h3, if_pos h4, hu]
                rw [open_assemble]
                simp
              · simp only [Open, if_neg h1, hct, if_pos h2, if_pos h3, if_pos h4, hu] at h
                rw [open_assemble] at h
                cases h
                rfl
          · simp [Open, h1, hct, h2, h3, h4] at h
        · simp [Open, h1, hct, h2, h3] at h
      · simp [Open, h1, hct, h2] at h

theorem NewCBCHMAC_fields (key : Bytes) (fac : Bytes → Option Block) (ctx : cbcAEAD)
    (h : NewCBCHMAC key fac = some ctx) :
    ctx.encryptionKey = key.drop (key.length / 2) ∧
    ctx.integrityKey = key.take (key.length / 2) ∧
    ctx.authtagBytes = key.length / 2 ∧
    fac (key.drop (key.length / 2)) = some ctx.blockCipher := by
  rcases hf : fac (key.drop (key.length / 2)) with _ | bc
  · simp [NewCBCHMAC, hf] at h
  · simp only [NewCBCHMAC, hf] at h
    cases h
    exact ⟨rfl, rfl, rfl, rfl⟩

theorem take_half_length (key : Bytes) :
    (key.take (key.length / 2)).length = key.length / 2 := by
  rw [List.length_take]
  have := Nat.div_le_self key.length 2
  omega

theorem sealAlloc_ptBuf (ctx : cbcAEAD) (m : SealMem) :
    (sealAlloc ctx m).ptBuf = m.ptBuf := rfl

theorem sealPad_ptBuf (ctx : cbcAEAD) (m0 m : SealMem)
    (h : sealPad ctx m0 = some m) : m.ptBuf = m0.ptBuf := by
  rcases hp : padPKCS7 m0.work ctx.blockCipher.blockSize with _ | w2
  · simp only [sealPad, hp] at h
    exact Option.noConfusion h
  · simp only [sealPad, hp] at h
    cases h
    rfl

theorem sealEncryptStep_ptBuf (ctx : cbcAEAD) (nonce : Bytes) (m0 m : SealMem)
    (h : sealEncryptStep ctx nonce m0 = some m) : m.ptBuf = m0.ptBuf := by
  by_cases hc : m0.work.length % ctx.blockCipher.blockSize = 0
  · simp only [sealEncryptStep, if_pos hc] at h
    cases h
    rfl
  · simp only [sealEncryptStep, if_neg hc] at h
    exact Option.noConfusion h

theorem sealSteps_ptBuf (ctx : cbcAEAD) (nonce pt : Bytes) (m : SealMem)
    (h : sealSteps ctx nonce pt = some m) : m.ptBuf = pt := by
  by_cases hn : nonce.length = ctx.blockCipher.blockSize
  · simp only [sealSteps, if_pos hn] at h
    rcases hp : sealPad ctx (sealAlloc ctx ⟨pt, []⟩) with _ | m2
    · rw [hp] at h
      exact Option.noConfusion h
    · rw [hp] at h
      rw [sealEncryptStep_ptBuf ctx nonce m2 m h, sealPad_ptBuf ctx _ m2 hp]
      rfl
  · simp only [sealSteps, if_neg hn] at h
    exact Option.noConfusion h

theorem tag_take_length (mac : HashAlg → Bytes → Bytes → Bytes) (alg : HashAlg)
    (ik msg : Bytes) (atb : Nat)
    (hmacl : ∀ h k m, (mac h k m).length = hashLength h)
    (hle : atb ≤ hashLength alg) :
    ((mac alg ik msg).take atb).length = atb := by
  rw [List.length_take, hmacl]
  omega

/-! ## The claims -/

/-- Claim C1, counterexample to the claim as stated: for a 4-byte combined
key (half-length 2, which is none of 16, 24, 32) and a factory accepting
any key, NewCBCHMAC succeeds and returns a context instead of failing with
a construction-time error. -/
theorem C1_counterexample :
    (NewCBCHMAC (List.replicate 4 0) (fun _ => some idBlock)).isSome = true ∧
    (List.replicate 4 0).length / 2 ≠ 16 ∧
    (List.replicate 4 0).length / 2 ≠ 24 ∧
    (List.replicate 4 0).length / 2 ≠ 32 := by
  decide

/-- Claim C1 as amended: NewCBCHMAC performs no supported-size check; for a
combined key whose half-length is not 16, 24 or 32 it still returns a
context whenever the factory accepts the encryption half, and the
unsupported-key failure is deferred into the tag-computation path, where
computeAuthTag selects no hash and Go panics inside hmac.New. -/
theorem C1_no_construction_check (key : Bytes) (fac : Bytes → Option Block) (bc : Block)
    (hfac : fac (key.drop (key.length / 2)) = some bc)
    (hunsup : hashForKeyLen (key.length / 2) = none) :
    NewCBCHMAC key fac =
      some ⟨key.drop (key.length / 2), key.take (key.length / 2), key.length / 2, bc⟩ ∧
    ∀ (mac : HashAlg → Bytes → Bytes → Bytes) (aad nonce ct : Bytes),
      computeAuthTag mac ⟨key.drop (key.length / 2), key.take (key.length / 2),
        key.length / 2, bc⟩ aad nonce ct = none := by
  constructor
  · simp [NewCBCHMAC, hfac]
  · intro mac aad nonce ct
    apply computeAuthTag_none
    show hashForKeyLen (key.take (key.length / 2)).length = none
    rw [take_half_length]
    exact hunsup

/-- Witness for C1: the concrete unsupported 4-byte key, on which the
deferred tag computation indeed fails. -/
theorem C1_no_construction_check_witness :
    computeAuthTag macZero ⟨(List.replicate 4 0).drop ((List.replicate 4 0).length / 2),
      (List.replicate 4 0).take ((List.replicate 4 0).length / 2),
      (List.replicate 4 0).length / 2, idBlock⟩ [1] [2] [3] = none :=
  (C1_no_construction_check (List.replicate 4 0) (fun _ => some idBlock) idBlock rfl
    (by decide)).2 macZero [1] [2] [3]

/-- Claim C2: for every valid context (built by NewCBCHMAC from a key of
supported half-size with a factory the construction accepts, the block
cipher being a 16-byte-block permutation), every 16-byte nonce, plaintext
and aad, Open recovers from Seal's output exactly the original plaintext. -/
theorem C2_seal_open_roundtrip (mac : HashAlg → Bytes → Bytes → Bytes) (ext ext2 key : Bytes)
    (fac : Bytes → Option Block) (ctx : cbcAEAD) (nonce pt aad out : Bytes) (alg : HashAlg)
    (hnew : NewCBCHMAC key fac = some ctx)
    (hsup : hashForKeyLen (key.length / 2) = some alg)
    (hbs : ctx.blockCipher.blockSize = 16)
    (hencl : ∀ x, x.length = 16 → (ctx.blockCipher.encB x).length = 16)
    (hdec : ∀ x, x.length = 16 → ctx.blockCipher.decB (ctx.blockCipher.encB x) = x)
    (hmacl : ∀ h k m, (mac h k m).length = hashLength h)
    (hnonce : nonce.length = nonceBytes)
    (hseal : Seal mac ext ctx [] nonce pt aad = SealResult.ok out) :
    Open mac ext2 ctx [] nonce out aad = OpenResult.ok pt := by
  obtain ⟨henc2, hik, hatb, hfac⟩ := NewCBCHMAC_fields key fac ctx hnew
  have hikl : ctx.integrityKey.length = key.length / 2 := by rw [hik, take_half_length]
  apply open_of_seal mac ext ext2 ctx nonce pt aad out alg
  · rw [hikl]; exact hsup
  · rw [hatb, hikl]
  · omega
  · rw [hbs]; exact hnonce
  · rw [hbs]; exact hencl
  · rw [hbs]; exact hdec
  · exact hmacl
  · exact hseal

/-- Witness for C2: a concrete 32-byte key, identity block cipher, all-zero
nonce and 3-byte plaintext round-trip. -/
theorem C2_seal_open_roundtrip_witness :
    Open macZero [] ctx32 [] nonce16
      ([1, 2, 3] ++ List.replicate 13 13 ++ List.replicate 16 0) [7] = OpenResult.ok [1, 2, 3] :=
  C2_seal_open_roundtrip macZero [] [] (List.replicate 32 0) (fun _ => some idBlock) ctx32
    nonce16 [1, 2, 3] [7] ([1, 2, 3] ++ List.replicate 13 13 ++ List.replicate 16 0)
    HashAlg.sha256 rfl (by decide) rfl (fun x h => h) (fun x _ => rfl)
    (fun h _ _ => by simp [macZero]) rfl (by decide)

/-- Claim C3: Open returns tooShort exactly when the input is shorter than
authtagBytes (and never crashes there); with input at least that long it is
never tooShort; and whenever the recomputed tag over the leading bytes
differs from the trailing received tag, the result is authFailed no matter
what the block cipher's decryption function is — i.e. before any CBC
decryption can influence the outcome. -/
theorem C3_open_tag_gate (mac : HashAlg → Bytes → Bytes → Bytes) (ext : Bytes) (ctx : cbcAEAD)
    (dst nonce ct aad : Bytes) :
    (ct.length < ctx.authtagBytes → Open mac ext ctx dst nonce ct aad = OpenResult.tooShort) ∧
    (ctx.authtagBytes ≤ ct.length → Open mac ext ctx dst nonce ct aad ≠ OpenResult.tooShort) ∧
    (∀ expTag : Bytes, ctx.authtagBytes ≤ ct.length →
      computeAuthTag mac ctx aad nonce (ct.take (ct.length - ctx.authtagBytes)) = some expTag →
      expTag ≠ ct.drop (ct.length - ctx.authtagBytes) →
      ∀ d : Bytes → Bytes,
        Open mac ext (withDec ctx d) dst nonce ct aad = OpenResult.authFailed) := by
  refine ⟨?_, ?_, ?_⟩
  · intro h
    exact Open_tooShort_of_lt mac ext ctx dst nonce ct aad h
  · intro h
    exact Open_ne_tooShort mac ext ctx dst nonce ct aad h
  · intro expTag hge htag hne d
    exact Open_eval_mismatch mac ext (withDec ctx d) dst nonce ct aad expTag hge htag hne

/-- Witness for C3: a 15-byte input is tooShort, a 16-byte input is not,
and a 16-byte input with a wrong tag is authFailed for the identity
decryption function. -/
theorem C3_open_tag_gate_witness :
    Open macZero [] ctx32 [] nonce16 (List.replicate 15 0) [] = OpenResult.tooShort ∧
    Open macZero [] ctx32 [] nonce16 (List.replicate 16 1) [] ≠ OpenResult.tooShort ∧
    Open macZero [] (withDec ctx32 (fun x => x)) [] nonce16 (List.replicate 16 1) [] =
      OpenResult.authFailed :=
  ⟨(C3_open_tag_gate macZero [] ctx32 [] nonce16 (List.replicate 15 0) []).1 (by decide),
   (C3_open_tag_gate macZero [] ctx32 [] nonce16 (List.replicate 16 1) []).2.1 (by decide),
   (C3_open_tag_gate macZero [] ctx32 [] nonce16 (List.replicate 16 1) []).2.2
     (List.replicate 16 0) (by decide) (by decide) (by decide) (fun x => x)⟩

/-- Claim C4: the authentication tag is HMAC(hash, IntegrityKey,
aad || nonce || ciphertext || encode64(len(aad)*8)) truncated to the first
authTagBytes = len(IntegrityKey) bytes, the hash being SHA-256, SHA-384 or
SHA-512 for integrity keys of 16, 24 or 32 bytes; the trailing length
field is the big-endian 8-byte encoding of the aad bit length, and every
context built by NewCBCHMAC satisfies authtagBytes = len(IntegrityKey).
Seal and Open both invoke this same computeAuthTag with the same
truncation. -/
theorem C4_tag_formula (mac : HashAlg → Bytes → Bytes → Bytes) (ctx : cbcAEAD)
    (aad nonce ct : Bytes)
    (hatb : ctx.authtagBytes = ctx.integrityKey.length) :
    (ctx.integrityKey.length = 16 → computeAuthTag mac ctx aad nonce ct =
      some ((mac HashAlg.sha256 ctx.integrityKey
        (aad ++ nonce ++ ct ++ encode64 (aad.length * 8 % 2 ^ 64))).take ctx.integrityKey.length)) ∧
    (ctx.integrityKey.length = 24 → computeAuthTag mac ctx aad nonce ct =
      some ((mac HashAlg.sha384 ctx.integrityKey
        (aad ++ nonce ++ ct ++ encode64 (aad.length * 8 % 2 ^ 64))).take ctx.integrityKey.length)) ∧
    (ctx.integrityKey.length = 32 → computeAuthTag mac ctx aad nonce ct =
      some ((mac HashAlg.sha512 ctx.integrityKey
        (aad ++ nonce ++ ct ++ encode64 (aad.length * 8 % 2 ^ 64))).take ctx.integrityKey.length)) ∧
    (aad.length * 8 < 2 ^ 64 → bitLen aad = encode64 (aad.length * 8)) ∧
    (∀ (key : Bytes) (fac : Bytes → Option Block) (ctx2 : cbcAEAD),
      NewCBCHMAC key fac = some ctx2 → ctx2.authtagBytes = ctx2.integrityKey.length) := by
  refine ⟨?_, ?_, ?_, ?_, ?_⟩
  · intro h16
    rw [computeAuthTag_eq mac ctx aad nonce ct HashAlg.sha256 (by rw [h16]; rfl), hatb]
    rfl
  · intro h24
    rw [computeAuthTag_eq mac ctx aad nonce ct HashAlg.sha384 (by rw [h24]; rfl), hatb]
    rfl
  · intro h32
    rw [computeAuthTag_eq mac ctx aad nonce ct HashAlg.sha512 (by rw [h32]; rfl), hatb]
    rfl
  · intro hsmall
    rw [bitLen, Nat.mod_eq_of_lt hsmall]
  · intro key fac ctx2 hn
    obtain ⟨_, hik, hatb2, _⟩ := NewCBCHMAC_fields key fac ctx2 hn
    rw [hatb2, hik, take_half_length]

/-- Witness for C4: the tag formula evaluated on the concrete 16-byte
integrity key context. -/
theorem C4_tag_formula_witness :
    computeAuthTag macZero ctx32 [1] nonce16 [2] =
      some ((macZero HashAlg.sha256 ctx32.integrityKey
        ([1] ++ nonce16 ++ [2] ++ encode64 (([1] : Bytes).length * 8 % 2 ^ 64))).take
          ctx32.integrityKey.length) :=
  (C4_tag_formula macZero ctx32 [1] nonce16 [2] (by decide)).1 (by decide)

/-- Claim C5: Seal's output length is len(pt) + p + authtagBytes where p is
the padding amount with 1 <= p <= blockSize; Overhead() = blockSize +
authtagBytes bounds the extra bytes Seal adds, and the empty plaintext
yields exactly one block of padding plus the tag. -/
theorem C5_seal_length (mac : HashAlg → Bytes → Bytes → Bytes) (ext : Bytes) (ctx : cbcAEAD)
    (nonce pt aad out : Bytes) (alg : HashAlg)
    (hbs : 1 ≤ ctx.blockCipher.blockSize)
    (hnl : nonce.length = ctx.blockCipher.blockSize)
    (hsup : hashForKeyLen ctx.integrityKey.length = some alg)
    (hatb : ctx.authtagBytes = ctx.integrityKey.length)
    (hencl : ∀ x, x.length = ctx.blockCipher.blockSize →
      (ctx.blockCipher.encB x).length = ctx.blockCipher.blockSize)
    (hmacl : ∀ h k m, (mac h k m).length = hashLength h)
    (hseal : Seal mac ext ctx [] nonce pt aad = SealResult.ok out) :
    out.length = pt.length + padLen ctx.blockCipher.blockSize pt.length + ctx.authtagBytes ∧
    1 ≤ padLen ctx.blockCipher.blockSize pt.length ∧
    padLen ctx.blockCipher.blockSize pt.length ≤ ctx.blockCipher.blockSize ∧
    Overhead ctx = ctx.blockCipher.blockSize + ctx.authtagBytes ∧
    out.length ≤ pt.length + Overhead ctx ∧
    (pt = [] → out.length = Overhead ctx) := by
  rw [Seal_eval mac ext ctx [] nonce pt aad alg hbs hnl hsup] at hseal
  have hct := length_cbcEncrypt_padded ctx.blockCipher nonce pt hbs hnl hencl
  have hpl := paddedPT_length ctx.blockCipher.blockSize pt
  have hle := keyLen_le_hashLength _ alg hsup
  have htag := tag_take_length mac alg ctx.integrityKey
    (aad ++ nonce ++ cbcEncrypt ctx.blockCipher nonce (paddedPT ctx.blockCipher.blockSize pt) ++
      bitLen aad) ctx.authtagBytes hmacl (by omega)
  cases hseal
  have h1 : (([] : Bytes) ++
      cbcEncrypt ctx.blockCipher nonce (paddedPT ctx.blockCipher.blockSize pt) ++
      (mac alg ctx.integrityKey (aad ++ nonce ++
        cbcEncrypt ctx.blockCipher nonce (paddedPT ctx.blockCipher.blockSize pt) ++
        bitLen aad)).take ctx.authtagBytes).length =
      pt.length + padLen ctx.blockCipher.blockSize pt.length + ctx.authtagBytes := by
    simp only [List.nil_append, List.length_append]
    rw [hct, hpl, htag]
  have hp1 := padLen_pos ctx.blockCipher.blockSize pt.length hbs
  have hp2 := padLen_le ctx.blockCipher.blockSize pt.length
  have hov : Overhead ctx = ctx.blockCipher.blockSize + ctx.authtagBytes := rfl
  refine ⟨h1, hp1, hp2, hov, by omega, ?_⟩
  intro hpt
  subst hpt
  have hempty : padLen ctx.blockCipher.blockSize ([] : Bytes).length =
      ctx.blockCipher.blockSize := by
    simp [padLen]
  rw [h1, hempty, hov]
  simp

/-- Witness for C5: the empty plaintext on the concrete context yields
exactly Overhead() bytes of output. -/
theorem C5_seal_length_witness :
    (List.replicate 16 16 ++ List.replicate 16 0 : Bytes).length = Overhead ctx32 :=
  (C5_seal_length macZero [] ctx32 nonce16 [] []
      (List.replicate 16 16 ++ List.replicate 16 0) HashAlg.sha256
      (by decide) rfl (by decide) (by decide) (fun x h => h)
      (fun h _ _ => by simp [macZero]) (by decide)).2.2.2.2.2 rfl

/-- Claim C6, counterexample to the claim as stated: even on a fully
supported context (16-byte integrity key, 16-byte-block cipher), Seal does
panic for a nonce of the wrong length — cipher.NewCBCEncrypter panics
before padding is even reached — so "Seal never panics for any nonce" is
false. -/
theorem C6_counterexample :
    Seal macZero [] ctx32 [] [] [] [] = SealResult.panicked := by
  decide

/-- Claim C6 as amended: the padding-failure branch inside Seal is indeed
unreachable — on Seal's working buffer Pad never fails when blockSize >= 1
— and Seal never panics for any plaintext and aad, provided the context has
a supported key size and the nonce has blockSize bytes. -/
theorem C6_seal_no_panic (mac : HashAlg → Bytes → Bytes → Bytes) (ext : Bytes) (ctx : cbcAEAD)
    (dst nonce pt aad : Bytes) (alg : HashAlg)
    (hbs : 1 ≤ ctx.blockCipher.blockSize)
    (hnl : nonce.length = ctx.blockCipher.blockSize)
    (hsup : hashForKeyLen ctx.integrityKey.length = some alg) :
    sealPad ctx (sealAlloc ctx ⟨pt, []⟩) ≠ none ∧
    Seal mac ext ctx dst nonce pt aad ≠ SealResult.panicked := by
  constructor
  · rw [sealAlloc_work]
    simp [sealPad, padPKCS7_eq pt ctx.blockCipher.blockSize hbs]
  · rw [Seal_eval mac ext ctx dst nonce pt aad alg hbs hnl hsup]
    exact fun hcon => SealResult.noConfusion hcon

/-- Witness for C6: no panic on the concrete context with a correct-length
nonce and empty plaintext. -/
theorem C6_seal_no_panic_witness :
    sealPad ctx32 (sealAlloc ctx32 ⟨[], []⟩) ≠ none ∧
    Seal macZero [] ctx32 [] nonce16 [] [] ≠ SealResult.panicked :=
  C6_seal_no_panic macZero [] ctx32 [] nonce16 [] [] HashAlg.sha256
    (by decide) rfl (by decide)

/-- Claim C7: no statement of Seal writes the caller's plaintext buffer:
the allocate-and-copy step, the padding step and the in-place CBC
encryption step each leave ptBuf unchanged, and the whole buffer phase of
Seal ends with ptBuf still equal to the original plaintext on every
execution path. -/
theorem C7_plaintext_unchanged :
    (∀ (ctx : cbcAEAD) (m : SealMem), (sealAlloc ctx m).ptBuf = m.ptBuf) ∧
    (∀ (ctx : cbcAEAD) (m0 m : SealMem), sealPad ctx m0 = some m → m.ptBuf = m0.ptBuf) ∧
    (∀ (ctx : cbcAEAD) (nonce : Bytes) (m0 m : SealMem),
      sealEncryptStep ctx nonce m0 = some m → m.ptBuf = m0.ptBuf) ∧
    (∀ (ctx : cbcAEAD) (nonce pt : Bytes) (m : SealMem),
      sealSteps ctx nonce pt = some m → m.ptBuf = pt) :=
  ⟨sealAlloc_ptBuf, sealPad_ptBuf, sealEncryptStep_ptBuf, sealSteps_ptBuf⟩

/-- Witness for C7: the buffer phase of Seal run on a concrete plaintext
leaves the plaintext buffer intact. -/
theorem C7_plaintext_unchanged_witness :
    (SealMem.mk [5] ([5] ++ List.replicate 15 15)).ptBuf = [5] :=
  C7_plaintext_unchanged.2.2.2 ctx32 nonce16 [5] ⟨[5], [5] ++ List.replicate 15 15⟩
    (by decide)

/-- Claim C8: NonceSize is the fixed constant 16 for every context,
whatever block-cipher factory was used to build it, and for a
128-bit-block cipher it coincides with the block size used as IV length. -/
theorem C8_nonce_size :
    (∀ ctx : cbcAEAD, NonceSize ctx = 16) ∧
    (∀ ctx : cbcAEAD, ctx.blockCipher.blockSize = 16 →
      NonceSize ctx = ctx.blockCipher.blockSize) ∧
    (∀ (key : Bytes) (fac : Bytes → Option Block) (ctx : cbcAEAD),
      NewCBCHMAC key fac = some ctx → NonceSize ctx = 16) :=
  ⟨fun _ => rfl, fun _ h => h.symm, fun _ _ _ _ => rfl⟩

/-- Witness for C8: the concrete context with a 16-byte-block cipher. -/
theorem C8_nonce_size_witness : NonceSize ctx32 = ctx32.blockCipher.blockSize :=
  C8_nonce_size.2.1 ctx32 rfl

/-- Claim C9: NewCBCHMAC performs no length or evenness check: it always
splits the key at len/2 (integer division), succeeds exactly when the
factory accepts the encryption half key[len/2:], and for odd lengths the
encryption half is one byte longer than the integrity half. -/
theorem C9_key_split (key : Bytes) (fac : Bytes → Option Block) :
    ((NewCBCHMAC key fac).isSome = (fac (key.drop (key.length / 2))).isSome) ∧
    (∀ bc, fac (key.drop (key.length / 2)) = some bc →
      NewCBCHMAC key fac = some ⟨key.drop (key.length / 2), key.take (key.length / 2),
        key.length / 2, bc⟩) ∧
    ((key.take (key.length / 2)).length = key.length / 2) ∧
    ((key.drop (key.length / 2)).length = key.length - key.length / 2) ∧
    (key.length % 2 = 1 →
      (key.drop (key.length / 2)).length = (key.take (key.length / 2)).length + 1) := by
  refine ⟨?_, ?_, take_half_length key, List.length_drop _ _, ?_⟩
  · rcases hf : fac (key.drop (key.length / 2)) with _ | bc <;> simp [NewCBCHMAC, hf]
  · intro bc hf
    simp [NewCBCHMAC, hf]
  · intro hodd
    rw [take_half_length, List.length_drop]
    omega

/-- Witness for C9: the odd-length key [1, 2, 3] splits into integrity half
[1] and encryption half [2, 3]. -/
theorem C9_key_split_witness :
    NewCBCHMAC [1, 2, 3] (fun _ => some idBlock) =
      some ⟨([1, 2, 3] : Bytes).drop (([1, 2, 3] : Bytes).length / 2),
        ([1, 2, 3] : Bytes).take (([1, 2, 3] : Bytes).length / 2),
        ([1, 2, 3] : Bytes).length / 2, idBlock⟩ ∧
    (([1, 2, 3] : Bytes).drop (([1, 2, 3] : Bytes).length / 2)).length =
      (([1, 2, 3] : Bytes).take (([1, 2, 3] : Bytes).length / 2)).length + 1 :=
  ⟨(C9_key_split [1, 2, 3] (fun _ => some idBlock)).2.1 idBlock rfl,
   (C9_key_split [1, 2, 3] (fun _ => some idBlock)).2.2.2.2 (by decide)⟩

/-- Claim C10: resize always returns a buffer of the requested length whose
front preserves the existing bytes (whether capacity is reused or a fresh
buffer is allocated), and consequently Seal and Open append to the
destination hint: a successful Seal returns dst followed by the body it
would produce for an empty hint, and likewise Open returns dst followed by
the plaintext. -/
theorem C10_append_to_dst (mac : HashAlg → Bytes → Bytes → Bytes) (ext ext2 : Bytes)
    (ctx : cbcAEAD) (dst nonce buf aad : Bytes) :
    (∀ (inb : Bytes) (n : Nat), (resize ext inb n).length = n) ∧
    (∀ (inb : Bytes) (n : Nat), inb.length ≤ n → (resize ext inb n).take inb.length = inb) ∧
    (∀ out, Seal mac ext ctx dst nonce buf aad = SealResult.ok out →
      ∃ body, Seal mac ext2 ctx [] nonce buf aad = SealResult.ok body ∧ out = dst ++ body) ∧
    (∀ out, Open mac ext ctx dst nonce buf aad = OpenResult.ok out →
      ∃ pt2, Open mac ext2 ctx [] nonce buf aad = OpenResult.ok pt2 ∧ out = dst ++ pt2) :=
  ⟨fun inb n => length_resize ext inb n,
   fun inb n h => resize_take ext inb n h,
   fun out h => Seal_shift_dst mac ext ext2 ctx dst nonce buf aad out h,
   fun out h => Open_shift_dst mac ext ext2 ctx dst nonce buf aad out h⟩

/-- Witness for C10: resize preserves the prefix on a concrete shrunken
capacity, and a concrete Open call prepends its destination hint. -/
theorem C10_append_to_dst_witness :
    ((resize [1, 2] [9] 3).take ([9] : Bytes).length = [9]) ∧
    (∃ pt2, Open macZero [] ctx32 [] nonce16
        (List.replicate 16 16 ++ List.replicate 16 0) [] = OpenResult.ok pt2 ∧
      ([9] : Bytes) = [9] ++ pt2) :=
  ⟨(C10_append_to_dst macZero [1, 2] [] ctx32 [9] nonce16
      (List.replicate 16 16 ++ List.replicate 16 0) []).2.1 [9] 3 (by decide),
   (C10_append_to_dst macZero [1, 2] [] ctx32 [9] nonce16
      (List.replicate 16 16 ++ List.replicate 16 0) []).2.2.2 [9] (by decide)⟩

end Jose

